import Mathlib

/-!
# Verification of the oclutil multi-device expression-execution engine

The repository ships a single umbrella header (`src/oclutil/oclutil.hpp`)
documenting the library; the component headers it includes
(`util.hpp`, `devlist.hpp`, `vector.hpp`, `spmat.hpp`, `reduce.hpp`) are not
part of the source tree.  The definitions below therefore model each
component from the specification, faithfully to its words, and the theorems
settle the spec's claims against those models.

Real (`double`) element values are modelled with exact integer arithmetic
(`Int`), which makes every scenario in the spec exact.
-/

namespace OclUtil

/-! ## Partition planner (spec 4.2)

`plan(N, shardCount)` divides `N` elements into `shardCount` contiguous
shards: the first `N mod shardCount` shards get `ceil(N/shardCount)`
elements, the rest get `floor(N/shardCount)`; it fails with
`InvalidPartitionError` if `shardCount == 0` or `N < 0`. -/

/-- Errors surfaced by the core (spec section 7). -/
inductive CoreError where
  | invalidPartition
  | typeMismatch
  deriving DecidableEq, Repr

/-- Modelled from the spec: boundary `i` of the near-equal partition of `n`
elements into `k` shards — the first `n % k` shards take one extra element. -/
def bnd (n k i : Nat) : Nat := i * (n / k) + min i (n % k)

/-- Modelled from the spec: the full boundary list `[0, b1, …, N]`. -/
def planBoundaries (n k : Nat) : List Nat :=
  (List.range (k + 1)).map (bnd n k)

/-- Modelled from the spec: `plan(N, shardCount)`, failing with
`InvalidPartitionError` when `shardCount == 0` or `N < 0`. -/
def plan (n : Int) (k : Nat) : Except CoreError (List Nat) :=
  if k = 0 ∨ n < 0 then .error .invalidPartition
  else .ok (planBoundaries n.toNat k)

/-- Ceiling division on naturals as the spec writes `ceil(N/shardCount)`. -/
def cdiv (a b : Nat) : Nat := (a + b - 1) / b

theorem bnd_zero (n k : Nat) : bnd n k 0 = 0 := by simp [bnd]

theorem bnd_last (n k : Nat) (hk : 0 < k) : bnd n k k = n := by
  have hlt : n % k < k := Nat.mod_lt _ hk
  have : min k (n % k) = n % k := by omega
  simp only [bnd, this]
  exact Nat.div_add_mod n k

theorem bnd_size (n k i : Nat) :
    bnd n k (i + 1) - bnd n k i = n / k + (if i < n % k then 1 else 0) := by
  unfold bnd
  have h3 : (i + 1) * (n / k) = i * (n / k) + n / k := by ring
  rcases lt_or_le i (n % k) with h | h
  · have h1 : min i (n % k) = i := Nat.min_eq_left (by omega)
    have h2 : min (i + 1) (n % k) = i + 1 := Nat.min_eq_left (by omega)
    rw [h1, h2, h3, if_pos h]
    generalize n / k = q
    omega
  · have h1 : min i (n % k) = n % k := Nat.min_eq_right h
    have h2 : min (i + 1) (n % k) = n % k := Nat.min_eq_right (by omega)
    rw [h1, h2, h3, if_neg (by omega : ¬ i < n % k)]
    generalize n / k = q
    omega

theorem bnd_mono (n k i : Nat) : bnd n k i ≤ bnd n k (i + 1) := by
  unfold bnd
  have h3 : (i + 1) * (n / k) = i * (n / k) + n / k := by ring
  rcases le_or_lt (i + 1) (n % k) with h | h
  · rw [Nat.min_eq_left (by omega : i ≤ n % k), Nat.min_eq_left h, h3]
    generalize n / k = q
    omega
  · rw [Nat.min_eq_right (by omega : n % k ≤ i + 1), h3]
    have h4 : min i (n % k) ≤ n % k := Nat.min_le_right _ _
    generalize hq : n / k = q at *
    omega

theorem cdiv_of_mod_pos (a b : Nat) (hb : 0 < b) (h : 0 < a % b) :
    cdiv a b = a / b + 1 := by
  have hdecomp := Nat.div_add_mod a b
  have hmod : a % b < b := Nat.mod_lt _ hb
  have hm : b * (a / b + 1) = b * (a / b) + b := by ring
  have : a + b - 1 = b * (a / b + 1) + (a % b - 1) := by omega
  rw [cdiv, this, Nat.mul_add_div hb]
  have : (a % b - 1) / b = 0 := Nat.div_eq_of_lt (by omega)
  omega

theorem planBoundaries_length (n k : Nat) :
    (planBoundaries n k).length = k + 1 := by
  simp [planBoundaries]

theorem planBoundaries_get (n k i : Nat) (hi : i < k + 1) :
    (planBoundaries n k).getD i 0 = bnd n k i := by
  simp [planBoundaries, List.getD_eq_getElem?_getD, hi]

theorem bnd_le (n k i : Nat) (hi : i ≤ k) : bnd n k i ≤ n := by
  unfold bnd
  have h1 : i * (n / k) ≤ k * (n / k) := Nat.mul_le_mul_right _ hi
  have h2 : min i (n % k) ≤ n % k := Nat.min_le_right _ _
  have h3 : k * (n / k) + n % k = n := Nat.div_add_mod n k
  omega

theorem planBoundaries_eq_cons (n k : Nat) :
    planBoundaries n k = 0 :: (List.range k).map (fun i => bnd n k (i + 1)) := by
  simp only [planBoundaries, List.range_succ_eq_map, List.map_cons, List.map_map]
  refine congrArg₂ _ (bnd_zero n k) ?_
  rfl

theorem planBoundaries_chain (n k : Nat) :
    List.Chain' (· ≤ ·) (planBoundaries n k) := by
  unfold planBoundaries
  rw [List.chain'_map, List.chain'_range_succ]
  intro m _
  exact bnd_mono n k m

theorem planBoundaries_tail_getLast (n k : Nat) (hk : 1 ≤ k) :
    ((List.range k).map (fun i => bnd n k (i + 1))).getLastD 0 = n := by
  obtain ⟨k', rfl⟩ : ∃ k', k = k' + 1 := ⟨k - 1, by omega⟩
  rw [show List.range (k' + 1) = List.range k' ++ [k'] from List.range_succ k']
  simp [bnd_last n (k' + 1) (by omega)]

/-! ## List slicing and the distributed vector (spec 4.3)

The distributed vector shards its data per the partition boundaries; shard
`d` holds the contiguous slice `[b_d, b_{d+1})` of the logical array.
`copyFrom` / `copyTo` are the bulk host transfers; shard-order concatenation
equals logical order. -/

/-- Contiguous slice `[a, b)` of a list. -/
def slice (h : List α) (a b : Nat) : List α := (h.drop a).take (b - a)

/-- Modelled from the spec: the per-shard buffers for boundary list
`a :: bs` (shard `i` holds `slice h bᵢ bᵢ₊₁`). -/
def shardsFrom (h : List α) (a : Nat) : List Nat → List (List α)
  | [] => []
  | b :: rest => slice h a b :: shardsFrom h b rest

theorem shardsFrom_flatten (h : List α) :
    ∀ (bs : List Nat) (a : Nat), List.Chain' (· ≤ ·) (a :: bs) →
      bs.getLastD a = h.length →
      (shardsFrom h a bs).flatten = h.drop a
  | [], a, _, hlast => by
      simp only [List.getLastD] at hlast
      simp [shardsFrom, hlast]
  | b :: rest, a, hchain, hlast => by
      rw [List.chain'_cons] at hchain
      rw [List.getLastD_cons] at hlast
      have ih := shardsFrom_flatten h rest b hchain.2 hlast
      simp only [shardsFrom, List.flatten_cons, ih, slice]
      rw [show h.drop b = (h.drop a).drop (b - a) by
        rw [List.drop_drop]
        congr 1
        omega]
      exact List.take_append_drop _ _

theorem shardsFrom_getD (h : List α) :
    ∀ (bs : List Nat) (a d : Nat), d < bs.length →
      (shardsFrom h a bs).getD d [] =
        slice h ((a :: bs).getD d 0) (bs.getD d 0)
  | [], _, _, hd => by simp at hd
  | b :: rest, a, 0, _ => by simp [shardsFrom]
  | b :: rest, a, d + 1, hd => by
      have ih := shardsFrom_getD h rest b d (by simpa using hd)
      simpa [shardsFrom] using ih

theorem shardsFrom_length (h : List α) :
    ∀ (bs : List Nat) (a : Nat), (shardsFrom h a bs).length = bs.length
  | [], _ => rfl
  | b :: rest, a => by simp [shardsFrom, shardsFrom_length h rest b]

theorem slice_length (h : List α) (a b : Nat) (hab : a ≤ b)
    (hb : b ≤ h.length) : (slice h a b).length = b - a := by
  simp only [slice, List.length_take, List.length_drop]
  omega

/-- Modelled from the spec: the distributed vector — a partition boundary
list plus one buffer per shard (`clu::vector` holds a `cl::Buffer` per
device queue). -/
structure vector where
  bnds : List Nat
  shards : List (List Int)
  deriving Repr, DecidableEq

/-- Modelled from the spec: construct a distributed vector over `k` queues
from host array `h` (bulk blocking `copyFrom`): the contents are partitioned
between the queues per the partition planner. -/
def copyFrom (k : Nat) (h : List Int) : vector :=
  let bs := planBoundaries h.length k
  ⟨bs, shardsFrom h 0 bs.tail⟩

/-- Modelled from the spec: bulk `copyTo(hostArray)` — shard-order
concatenation of the shard buffers, equal to logical element order. -/
def copyTo (v : vector) : List Int := v.shards.flatten

/-- Modelled from the spec: `vector::part_size(d)` — the element count of
shard `d`. -/
def vector.part_size (v : vector) (d : Nat) : Nat :=
  v.bnds.getD (d + 1) 0 - v.bnds.getD d 0

/-- Modelled from the spec: `vector::operator()(d)` — the native buffer
backing shard `d`. -/
def vector.deviceBuffer (v : vector) (d : Nat) : List Int :=
  v.shards.getD d []

theorem copyFrom_copyTo (k : Nat) (hk : 1 ≤ k) (h : List Int) :
    copyTo (copyFrom k h) = h := by
  unfold copyTo copyFrom
  have hcons := planBoundaries_eq_cons h.length k
  rw [hcons]
  simp only [List.tail_cons]
  rw [shardsFrom_flatten h _ 0 ?_ ?_]
  · exact List.drop_zero h
  · rw [← hcons]
    exact planBoundaries_chain h.length k
  · exact planBoundaries_tail_getLast h.length k hk

theorem bnd_monotone (n k : Nat) : Monotone (bnd n k) :=
  monotone_nat_of_le_succ (bnd_mono n k)

/-- **C3**: for every `N ≥ 0` and `shardCount ≥ 1`, `plan(N, shardCount)`
returns boundaries `[0, b1, …, N]`; the first `N mod shardCount` shards have
`ceil(N/shardCount)` elements and the remaining shards have
`floor(N/shardCount)`; shard sizes sum to `N` and differ by at most 1 with
larger shards first; the function is deterministic; for `N = 8`,
`shardCount = 2` the boundaries are `[0, 4, 8]`. -/
theorem plan_partition_correct (N : Int) (k : Nat) (hN : 0 ≤ N) (hk : 1 ≤ k) :
    ∃ bs : List Nat,
      plan N k = .ok bs ∧
      bs.length = k + 1 ∧
      bs.getD 0 0 = 0 ∧
      bs.getD k 0 = N.toNat ∧
      (∀ i < k, bs.getD (i + 1) 0 - bs.getD i 0 =
        if i < N.toNat % k then cdiv N.toNat k else N.toNat / k) ∧
      (∑ i ∈ Finset.range k, (bs.getD (i + 1) 0 - bs.getD i 0)) = N.toNat ∧
      (∀ i j, i ≤ j → j < k →
        bs.getD (j + 1) 0 - bs.getD j 0 ≤ bs.getD (i + 1) 0 - bs.getD i 0 ∧
        bs.getD (i + 1) 0 - bs.getD i 0 ≤ (bs.getD (j + 1) 0 - bs.getD j 0) + 1) ∧
      (∀ (N' : Int) (k' : Nat), N' = N → k' = k → plan N' k' = plan N k) := by
  set n := N.toNat with hn
  refine ⟨planBoundaries n k, ?_, planBoundaries_length n k, ?_, ?_, ?_, ?_, ?_, ?_⟩
  · unfold plan
    rw [if_neg (by omega)]
  · rw [planBoundaries_get n k 0 (by omega)]
    exact bnd_zero n k
  · rw [planBoundaries_get n k k (by omega)]
    exact bnd_last n k (by omega)
  · intro i hi
    rw [planBoundaries_get n k (i + 1) (by omega), planBoundaries_get n k i (by omega),
      bnd_size n k i]
    rcases lt_or_le i (n % k) with h | h
    · rw [if_pos h, if_pos h, cdiv_of_mod_pos n k (by omega) (by omega)]
    · rw [if_neg (by omega), if_neg (by omega)]
      omega
  · calc (∑ i ∈ Finset.range k,
            ((planBoundaries n k).getD (i + 1) 0 - (planBoundaries n k).getD i 0))
        = ∑ i ∈ Finset.range k, (bnd n k (i + 1) - bnd n k i) := by
          refine Finset.sum_congr rfl ?_
          intro i hi
          simp only [Finset.mem_range] at hi
          rw [planBoundaries_get n k (i + 1) (by omega),
            planBoundaries_get n k i (by omega)]
      _ = bnd n k k - bnd n k 0 := Finset.sum_range_tsub (bnd_monotone n k) k
      _ = n := by
          rw [bnd_last n k (by omega), bnd_zero n k]
          omega
  · intro i j hij hjk
    rw [planBoundaries_get n k (i + 1) (by omega), planBoundaries_get n k i (by omega),
      planBoundaries_get n k (j + 1) (by omega), planBoundaries_get n k j (by omega),
      bnd_size n k i, bnd_size n k j]
    rcases lt_or_le j (n % k) with h' | h'
    · rw [if_pos (by omega : i < n % k), if_pos h']
      omega
    · rw [if_neg (by omega : ¬ j < n % k)]
      rcases lt_or_le i (n % k) with h | h
      · rw [if_pos h]
        omega
      · rw [if_neg (by omega : ¬ i < n % k)]
        omega
  · intro N' k' hN' hk'
    rw [hN', hk']

/-- Witness for C3 at `N = 8`, `shardCount = 2`: the boundaries are `[0, 4, 8]`. -/
theorem plan_partition_correct_witness :
    (∃ bs, plan 8 2 = .ok bs ∧ bs.length = 3 ∧ bs.getD 0 0 = 0 ∧ bs.getD 2 0 = 8) ∧
    plan 8 2 = .ok [0, 4, 8] := by
  obtain ⟨bs, h1, h2, h3, h4, -⟩ := plan_partition_correct 8 2 (by decide) (by decide)
  exact ⟨⟨bs, h1, h2, h3, h4⟩, by rfl⟩

/-- **C8**: `plan(N, shardCount)` fails with `InvalidPartitionError` exactly
when `shardCount == 0` or `N < 0`, and produces no Partition in that case. -/
theorem plan_invalid_partition (N : Int) (k : Nat) :
    (plan N k = .error .invalidPartition ↔ (k = 0 ∨ N < 0)) ∧
    (∀ bs, plan N k = .ok bs → ¬(k = 0 ∨ N < 0)) := by
  constructor
  · unfold plan
    by_cases h : k = 0 ∨ N < 0
    · rw [if_pos h]
      exact iff_of_true rfl h
    · rw [if_neg h]
      exact iff_of_false (fun hco => Except.noConfusion hco) h
  · intro bs hok
    unfold plan at hok
    intro h
    rw [if_pos h] at hok
    exact Except.noConfusion hok

/-- Witness for C8: `plan(-1, 2)` and `plan(5, 0)` fail; `plan(5, 2)` succeeds. -/
theorem plan_invalid_partition_witness :
    plan (-1) 2 = .error .invalidPartition ∧
    plan 5 0 = .error .invalidPartition ∧
    ¬(2 = 0 ∨ (5 : Int) < 0) := by
  refine ⟨(plan_invalid_partition (-1) 2).1.mpr (Or.inr (by decide)),
    (plan_invalid_partition 5 0).1.mpr (Or.inl rfl),
    (plan_invalid_partition 5 2).2 (planBoundaries 5 2) (by rfl)⟩

/-- **C5**: `copyFrom` over any shard count followed by `copyTo` is the
identity on host arrays: shard-order concatenation equals logical order. -/
theorem copy_roundtrip (k : Nat) (hk : 1 ≤ k) (h : List Int) :
    copyTo (copyFrom k h) = h :=
  copyFrom_copyTo k hk h

/-- Witness for C5 at `k = 2`, `h = [1, 2, 3]`. -/
theorem copy_roundtrip_witness :
    1 ≤ 2 ∧ copyTo (copyFrom 2 [1, 2, 3]) = [1, 2, 3] :=
  ⟨by decide, copy_roundtrip 2 (by decide) [1, 2, 3]⟩

theorem getD_map_range (g : Nat → Nat) (k d : Nat) (hd : d < k) :
    ((List.range k).map g).getD d 0 = g d := by
  simp [List.getD_eq_getElem?_getD, hd]

/-- **C9**: for a distributed vector built over `k` queues, `operator()(d)`
for `d < k` returns the buffer backing shard `d` — the slice of the host
data between boundaries `d` and `d+1` — whose element count is
`part_size(d)`. -/
theorem deviceBuffer_backs_shard (k : Nat) (h : List Int) (d : Nat) (hd : d < k) :
    (copyFrom k h).deviceBuffer d = slice h (bnd h.length k d) (bnd h.length k (d + 1)) ∧
    ((copyFrom k h).deviceBuffer d).length = (copyFrom k h).part_size d ∧
    (copyFrom k h).part_size d = bnd h.length k (d + 1) - bnd h.length k d := by
  set n := h.length with hn
  have hps : (copyFrom k h).part_size d = bnd n k (d + 1) - bnd n k d := by
    unfold vector.part_size copyFrom
    rw [planBoundaries_get n k (d + 1) (by omega), planBoundaries_get n k d (by omega)]
  have hbuf : (copyFrom k h).deviceBuffer d = slice h (bnd n k d) (bnd n k (d + 1)) := by
    unfold vector.deviceBuffer copyFrom
    rw [planBoundaries_eq_cons n k]
    simp only [List.tail_cons]
    rw [shardsFrom_getD h _ 0 d (by simp [hd]), getD_map_range _ k d hd]
    congr 1
    rcases Nat.eq_zero_or_pos d with rfl | hpos
    · simp [bnd_zero]
    · obtain ⟨d', rfl⟩ : ∃ d', d = d' + 1 := ⟨d - 1, by omega⟩
      simp only [List.getD_cons_succ]
      rw [getD_map_range _ k d' (by omega)]
  refine ⟨hbuf, ?_, hps⟩
  rw [hbuf, hps]
  exact slice_length h _ _ (bnd_mono n k d) (bnd_le n k (d + 1) (by omega))

/-- Witness for C9 at `k = 2`, `h = [5, 6, 7]`, `d = 1`. -/
theorem deviceBuffer_backs_shard_witness :
    (copyFrom 2 [5, 6, 7]).deviceBuffer 1 = slice [5, 6, 7] (bnd 3 2 1) (bnd 3 2 2) ∧
    ((copyFrom 2 [5, 6, 7]).deviceBuffer 1).length = (copyFrom 2 [5, 6, 7]).part_size 1 :=
  ⟨(deviceBuffer_backs_shard 2 [5, 6, 7] 1 (by decide)).1,
   (deviceBuffer_backs_shard 2 [5, 6, 7] 1 (by decide)).2.1⟩

/-! ## Expression engine and kernel cache (spec 4.4)

Expression graphs are immutable trees of tags; the graph *shape* (tags and
arities, excluding leaf runtime values) keys the per-context kernel cache.
On a miss the kernel is generated by a deterministic tree-to-source
translation, compiled once, and inserted; on a hit only operand bindings
change. -/

/-- Closed set of unary operation tags. -/
inductive UnTag where
  | neg
  | absv
  deriving DecidableEq, Repr

/-- Closed set of binary operation tags. -/
inductive BinTag where
  | add
  | sub
  | mul
  deriving DecidableEq, Repr

/-- Modelled from the spec: the immutable expression graph —
`Leaf(vector | scalar constant) | UnaryOp | BinaryOp`. -/
inductive Expr where
  | leaf (v : vector)
  | const (c : Int)
  | unary (t : UnTag) (e : Expr)
  | binop (t : BinTag) (l r : Expr)
  deriving DecidableEq, Repr

/-- Modelled from the spec: the graph shape — the tree of tags and arities,
excluding leaf runtime values; this is the kernel cache key. -/
inductive Shape where
  | leafVec
  | leafConst
  | unary (t : UnTag) (s : Shape)
  | binop (t : BinTag) (l r : Shape)
  deriving DecidableEq, Repr

def shapeOf : Expr → Shape
  | .leaf _ => .leafVec
  | .const _ => .leafConst
  | .unary t e => .unary t (shapeOf e)
  | .binop t l r => .binop t (shapeOf l) (shapeOf r)

def applyUn : UnTag → Int → Int
  | .neg, x => -x
  | .absv, x => if x < 0 then -x else x

def applyBin : BinTag → Int → Int → Int
  | .add, a, b => a + b
  | .sub, a, b => a - b
  | .mul, a, b => a * b

/-- Value of logical element `i` of an expression graph. -/
def evalAt : Expr → Nat → Int
  | .leaf v, i => (copyTo v).getD i 0
  | .const c, _ => c
  | .unary t e, i => applyUn t (evalAt e i)
  | .binop t l r, i => applyBin t (evalAt l i) (evalAt r i)

/-- The logical result array of evaluating an expression over `n` elements. -/
def evalList (e : Expr) (n : Nat) : List Int :=
  (List.range n).map (evalAt e)

/-- Modelled from the spec: deterministic tree-to-source translation — each
node tag maps to one fixed source fragment. -/
def genSource : Shape → String
  | .leafVec => "p"
  | .leafConst => "c"
  | .unary .neg s => "(neg " ++ genSource s ++ ")"
  | .unary .absv s => "(abs " ++ genSource s ++ ")"
  | .binop .add l r => "(add " ++ genSource l ++ " " ++ genSource r ++ ")"
  | .binop .sub l r => "(sub " ++ genSource l ++ " " ++ genSource r ++ ")"
  | .binop .mul l r => "(mul " ++ genSource l ++ " " ++ genSource r ++ ")"

/-- Modelled from the spec: a compiled kernel — the program compiled for a
given graph shape (with its generated source). -/
structure CompiledKernel where
  shape : Shape
  src : String
  deriving DecidableEq, Repr

def compileKernel (s : Shape) : CompiledKernel := ⟨s, genSource s⟩

/-- Modelled from the spec: the `ExecutionContext` owns the kernel cache
keyed by graph shape; `compileCount` is the observable compilation counter
the spec's tests use. -/
structure ExecutionContext where
  cache : List (Shape × CompiledKernel)
  compileCount : Nat
  deriving DecidableEq, Repr

def findKernel (s : Shape) : List (Shape × CompiledKernel) → Option CompiledKernel
  | [] => none
  | (s', k) :: rest => if s' = s then some k else findKernel s rest

/-- Running a compiled kernel against an expression's operand bindings; the
kernel computes the shape's translation, so it is only applicable to graphs
of its own shape. -/
def runKernel (k : CompiledKernel) (e : Expr) (n : Nat) : List Int :=
  if shapeOf e = k.shape then evalList e n else []

/-- Modelled from the spec: evaluation against the per-context kernel cache:
compute the shape, look it up; on a miss generate + compile once and insert;
then bind this evaluation's operands and run the cached kernel. -/
def evalWithCache (ctx : ExecutionContext) (e : Expr) (n : Nat) :
    List Int × ExecutionContext :=
  match findKernel (shapeOf e) ctx.cache with
  | some k => (runKernel k e n, ctx)
  | none =>
      let k := compileKernel (shapeOf e)
      (runKernel k e n, ⟨(shapeOf e, k) :: ctx.cache, ctx.compileCount + 1⟩)

/-- **C1**: a kernel is compiled exactly once per (context, shape): the first
evaluation of a never-before-seen shape compiles (incrementing the
compilation counter) and inserts into the cache; every later evaluation of a
structurally identical graph recompiles nothing (counter and cache are
unchanged), and re-evaluating the same expression against unchanged operands
returns an identical result. -/
theorem kernel_cache_compile_once (ctx : ExecutionContext) (e e' : Expr)
    (n n' : Nat) (hsh : shapeOf e' = shapeOf e) :
    (findKernel (shapeOf e) ctx.cache = none →
      (evalWithCache ctx e n).2.compileCount = ctx.compileCount + 1 ∧
      findKernel (shapeOf e) (evalWithCache ctx e n).2.cache =
        some (compileKernel (shapeOf e))) ∧
    (evalWithCache (evalWithCache ctx e n).2 e' n').2.compileCount =
      (evalWithCache ctx e n).2.compileCount ∧
    (evalWithCache (evalWithCache ctx e n).2 e' n').2.cache =
      (evalWithCache ctx e n).2.cache ∧
    (evalWithCache (evalWithCache ctx e n).2 e n).1 = (evalWithCache ctx e n).1 := by
  rcases hfind : findKernel (shapeOf e) ctx.cache with _ | k
  · have h1 : evalWithCache ctx e n =
        (runKernel (compileKernel (shapeOf e)) e n,
         ⟨(shapeOf e, compileKernel (shapeOf e)) :: ctx.cache, ctx.compileCount + 1⟩) := by
      unfold evalWithCache
      rw [hfind]
    have hfind2 : findKernel (shapeOf e)
        ((shapeOf e, compileKernel (shapeOf e)) :: ctx.cache) =
        some (compileKernel (shapeOf e)) := by
      unfold findKernel
      rw [if_pos rfl]
    have hfind2' : findKernel (shapeOf e')
        ((shapeOf e, compileKernel (shapeOf e)) :: ctx.cache) =
        some (compileKernel (shapeOf e)) := by
      rw [hsh]
      exact hfind2
    have h2 : evalWithCache ⟨(shapeOf e, compileKernel (shapeOf e)) :: ctx.cache,
        ctx.compileCount + 1⟩ e' n' =
        (runKernel (compileKernel (shapeOf e)) e' n',
         ⟨(shapeOf e, compileKernel (shapeOf e)) :: ctx.cache, ctx.compileCount + 1⟩) := by
      unfold evalWithCache
      rw [hfind2']
    have h3 : evalWithCache ⟨(shapeOf e, compileKernel (shapeOf e)) :: ctx.cache,
        ctx.compileCount + 1⟩ e n =
        (runKernel (compileKernel (shapeOf e)) e n,
         ⟨(shapeOf e, compileKernel (shapeOf e)) :: ctx.cache, ctx.compileCount + 1⟩) := by
      unfold evalWithCache
      rw [hfind2]
    refine ⟨fun _ => ?_, ?_, ?_, ?_⟩ <;> simp [h1, h2, h3, hfind2]
  · have h1 : evalWithCache ctx e n = (runKernel k e n, ctx) := by
      unfold evalWithCache
      rw [hfind]
    have hfind' : findKernel (shapeOf e') ctx.cache = some k := by
      rw [hsh]
      exact hfind
    have h2 : evalWithCache ctx e' n' = (runKernel k e' n', ctx) := by
      unfold evalWithCache
      rw [hfind']
    refine ⟨fun hnone => ?_, ?_, ?_, ?_⟩
    · exact Option.noConfusion hnone
    · simp [h1, h2]
    · simp [h1, h2]
    · simp [h1]

/-- Concrete expression for the C1 witness: `x + Const(10)` over
`x = [1, 2, 3, 4]`. -/
def exprC1 : Expr := .binop .add (.leaf (copyFrom 2 [1, 2, 3, 4])) (.const 10)

/-- Witness for C1 on an empty context: the first evaluation of `exprC1`
compiles (counter 0 → 1) and caches the shape; the second evaluation keeps
counter and cache unchanged and returns the identical result. -/
theorem kernel_cache_compile_once_witness :
    (evalWithCache ⟨[], 0⟩ exprC1 4).2.compileCount = 0 + 1 ∧
    findKernel (shapeOf exprC1) (evalWithCache ⟨[], 0⟩ exprC1 4).2.cache =
      some (compileKernel (shapeOf exprC1)) ∧
    (evalWithCache (evalWithCache ⟨[], 0⟩ exprC1 4).2 exprC1 4).2.compileCount =
      (evalWithCache ⟨[], 0⟩ exprC1 4).2.compileCount ∧
    (evalWithCache (evalWithCache ⟨[], 0⟩ exprC1 4).2 exprC1 4).1 =
      (evalWithCache ⟨[], 0⟩ exprC1 4).1 := by
  obtain ⟨h1, h2, _, h4⟩ :=
    kernel_cache_compile_once ⟨[], 0⟩ exprC1 exprC1 4 4 rfl
  obtain ⟨h1a, h1b⟩ := h1 rfl
  exact ⟨h1a, h1b, h2, h4⟩

/-! ## Element types and graph-construction checking (spec 4.4, errors 7)

Mixing element types in one expression fails with `TypeMismatchError` at
graph-construction time; no automatic type promotion occurs. -/

/-- The element types the engine instantiates kernels for. -/
inductive ElemType where
  | f32
  | f64
  | i32
  deriving DecidableEq, Repr

/-- Modelled from the spec: a typed expression graph — every node carries
its element type. -/
structure TypedExpr where
  et : ElemType
  graph : Expr
  deriving DecidableEq, Repr

/-- Modelled from the spec: graph construction of a binary node — the
element types of the operands are checked when the node is built, before any
evaluation; a mismatch is `TypeMismatchError`, and on success the node keeps
the operands' element type (no promotion). -/
def mkBinOp (t : BinTag) (l r : TypedExpr) : Except CoreError TypedExpr :=
  if l.et = r.et then .ok ⟨l.et, .binop t l.graph r.graph⟩
  else .error .typeMismatch

/-- **C7**: composing operands of different element types fails with
`TypeMismatchError` at graph-construction time — for every pair of operand
graphs, i.e. independently of any operand values, so before any evaluation —
and a successfully constructed node carries exactly its operands' common
element type: no automatic promotion ever occurs. -/
theorem type_mismatch_at_construction (t : BinTag) (a b : ElemType)
    (hab : a ≠ b) :
    (∀ g g' : Expr, mkBinOp t ⟨a, g⟩ ⟨b, g'⟩ = .error .typeMismatch) ∧
    (∀ (l r e : TypedExpr), mkBinOp t l r = .ok e → l.et = r.et ∧ e.et = l.et) := by
  constructor
  · intro g g'
    unfold mkBinOp
    rw [if_neg hab]
  · intro l r e hok
    unfold mkBinOp at hok
    by_cases h : l.et = r.et
    · rw [if_pos h] at hok
      exact ⟨h, by cases hok; rfl⟩
    · rw [if_neg h] at hok
      exact Except.noConfusion hok

/-- Witness for C7: `f32 + f64` fails at construction; `f32 + f32`
constructs a node of type `f32`. -/
theorem type_mismatch_at_construction_witness :
    mkBinOp .add ⟨.f32, .const 0⟩ ⟨.f64, .const 1⟩ = .error .typeMismatch ∧
    ElemType.f32 = ElemType.f32 ∧ ElemType.f32 = ElemType.f32 := by
  refine ⟨(type_mismatch_at_construction .add .f32 .f64 (by decide)).1 (.const 0) (.const 1),
    (type_mismatch_at_construction .add .f32 .f64 (by decide)).2
      ⟨.f32, .const 0⟩ ⟨.f32, .const 1⟩ ⟨.f32, .binop .add (.const 0) (.const 1)⟩ rfl⟩

theorem evalList_length (e : Expr) (n : Nat) : (evalList e n).length = n := by
  simp [evalList]

/-- Modelled from the spec: assigning an expression to a vector triggers
evaluation writing into this vector's buffers, shard by shard. -/
def assignExpr (u : vector) (e : Expr) : vector :=
  ⟨u.bnds, shardsFrom (evalList e (copyTo u).length) 0 u.bnds.tail⟩

/-- Modelled from the spec: `vector::operator+=` — `u += e`. -/
def addAssign (u : vector) (e : Expr) : vector :=
  assignExpr u (.binop .add (.leaf u) e)

/-- Modelled from the spec: `vector::operator-=` — `u -= e`. -/
def subAssign (u : vector) (e : Expr) : vector :=
  assignExpr u (.binop .sub (.leaf u) e)

theorem map_range_op_zipWith (op : Int → Int → Int) :
    ∀ (h : List Int) (f : Nat → Int),
      (List.range h.length).map (fun i => op (h.getD i 0) (f i)) =
        List.zipWith op h ((List.range h.length).map f)
  | [], _ => rfl
  | x :: xs, f => by
      have ih := map_range_op_zipWith op xs (fun i => f (i + 1))
      simp only [List.length_cons, List.range_succ_eq_map, List.map_cons, List.map_map,
        List.getD_cons_zero, List.zipWith_cons_cons]
      refine congrArg₂ _ rfl ?_
      simpa [Function.comp_def, Nat.succ_eq_add_one] using ih

theorem assignExpr_copyTo (k : Nat) (hk : 1 ≤ k) (h : List Int) (e : Expr) :
    copyTo (assignExpr (copyFrom k h) e) = evalList e h.length := by
  have hu : copyTo (copyFrom k h) = h := copyFrom_copyTo k hk h
  have hb : (copyFrom k h).bnds = planBoundaries h.length k := rfl
  unfold copyTo assignExpr
  simp only [hu, hb]
  rw [shardsFrom_flatten (evalList e h.length) _ 0 ?_ ?_, List.drop_zero]
  · rw [planBoundaries_eq_cons h.length k]
    simp only [List.tail_cons]
    rw [← planBoundaries_eq_cons h.length k]
    exact planBoundaries_chain h.length k
  · rw [planBoundaries_eq_cons h.length k]
    simp only [List.tail_cons]
    rw [evalList_length]
    exact planBoundaries_tail_getLast h.length k hk

/-- **C10**: distributed vectors support compound assignment from
expressions: `u += e` leaves `u` equal to the element-wise sum of `u`'s
prior contents and the value of `e`, and `u -= e` the element-wise
difference; the partition is preserved.  (In this embedding vectors are
immutable values, so the contents of every other vector are unchanged by
construction.) -/
theorem compound_assign_correct (k : Nat) (hk : 1 ≤ k) (h : List Int) (e : Expr) :
    copyTo (addAssign (copyFrom k h) e) =
      List.zipWith (· + ·) h (evalList e h.length) ∧
    copyTo (subAssign (copyFrom k h) e) =
      List.zipWith (· - ·) h (evalList e h.length) ∧
    (addAssign (copyFrom k h) e).bnds = (copyFrom k h).bnds ∧
    (subAssign (copyFrom k h) e).bnds = (copyFrom k h).bnds := by
  have hu : copyTo (copyFrom k h) = h := copyFrom_copyTo k hk h
  refine ⟨?_, ?_, rfl, rfl⟩
  · rw [addAssign, assignExpr_copyTo k hk h _]
    show (List.range h.length).map (evalAt (.binop .add (.leaf (copyFrom k h)) e)) =
      List.zipWith (· + ·) h (evalList e h.length)
    have hpt : evalAt (.binop .add (.leaf (copyFrom k h)) e) =
        fun i => h.getD i 0 + evalAt e i := by
      funext i
      simp [evalAt, applyBin, hu]
    rw [hpt]
    exact map_range_op_zipWith (· + ·) h (evalAt e)
  · rw [subAssign, assignExpr_copyTo k hk h _]
    show (List.range h.length).map (evalAt (.binop .sub (.leaf (copyFrom k h)) e)) =
      List.zipWith (· - ·) h (evalList e h.length)
    have hpt : evalAt (.binop .sub (.leaf (copyFrom k h)) e) =
        fun i => h.getD i 0 - evalAt e i := by
      funext i
      simp [evalAt, applyBin, hu]
    rw [hpt]
    exact map_range_op_zipWith (· - ·) h (evalAt e)

/-- Witness for C10 at `k = 2`, `h = [1, 2, 3, 4]`, `e = Const 10`:
`u += Const(10)` gives `[11, 12, 13, 14]` and `u -= Const(10)` gives
`[-9, -8, -7, -6]`. -/
theorem compound_assign_correct_witness :
    copyTo (addAssign (copyFrom 2 [1, 2, 3, 4]) (.const 10)) =
      List.zipWith (· + ·) [1, 2, 3, 4] (evalList (.const 10) 4) ∧
    copyTo (addAssign (copyFrom 2 [1, 2, 3, 4]) (.const 10)) = [11, 12, 13, 14] ∧
    copyTo (subAssign (copyFrom 2 [1, 2, 3, 4]) (.const 10)) = [-9, -8, -7, -6] :=
  ⟨(compound_assign_correct 2 (by decide) [1, 2, 3, 4] (.const 10)).1,
   by decide, by decide⟩

/-! ## Reductor (spec 4.5)

Per shard, the expression's shard-local results are folded with `op` by a
tree-structured intra-shard reduction; odd tail elements are folded by one
extra sequential step rather than assumed away.  The per-shard partial
scalars are then combined with `op` in shard order on the host. -/

/-- One parallel step of the intra-shard tree fold: adjacent elements are
combined pairwise; an odd tail element is carried into the next step (the
extra sequential fold step of the spec). -/
def pairStep (op : Int → Int → Int) : List Int → List Int
  | a :: b :: rest => op a b :: pairStep op rest
  | l => l

/-- Iterated tree-fold steps (`n` is fuel; `l.length` steps suffice). -/
def treeFoldN (op : Int → Int → Int) : Nat → List Int → List Int
  | 0, l => l
  | n + 1, l => treeFoldN op n (pairStep op l)

/-- Modelled from the spec: the intra-shard tree reduction — parallel
pairwise folding steps until one value remains; `dflt` (the operator's
identity) is returned for an empty shard. -/
def treeFold (op : Int → Int → Int) (dflt : Int) (l : List Int) : Int :=
  match treeFoldN op l.length l with
  | [a] => a
  | _ => dflt

/-- Modelled from the spec: `Reductor(op)` applied to a distributed vector:
tree-fold inside each shard, then combine the per-shard partial scalars
with `op` in shard order on the host. -/
def reduceVec (op : Int → Int → Int) (dflt : Int) (v : vector) : Int :=
  (v.shards.map (treeFold op dflt)).foldl op dflt

theorem pairStep_length (op : Int → Int → Int) :
    ∀ l : List Int, (pairStep op l).length = (l.length + 1) / 2
  | [] => rfl
  | [_] => by simp [pairStep]
  | a :: b :: rest => by
      have ih := pairStep_length op rest
      simp only [pairStep, List.length_cons, ih]
      omega

theorem pairStep_sum :
    ∀ l : List Int, (pairStep (· + ·) l).sum = l.sum
  | [] => rfl
  | [_] => by simp [pairStep]
  | a :: b :: rest => by
      have ih := pairStep_sum rest
      simp only [pairStep, List.sum_cons, ih]
      ring

theorem treeFoldN_sum :
    ∀ (n : Nat) (l : List Int), (treeFoldN (· + ·) n l).sum = l.sum
  | 0, _ => rfl
  | n + 1, l => by
      rw [treeFoldN, treeFoldN_sum n (pairStep _ l), pairStep_sum l]

theorem pairStep_ne_nil (op : Int → Int → Int) :
    ∀ l : List Int, l ≠ [] → pairStep op l ≠ []
  | [], hne => absurd rfl hne
  | [a], _ => by simp [pairStep]
  | a :: b :: rest, _ => by simp [pairStep]

theorem treeFoldN_ne_nil (op : Int → Int → Int) :
    ∀ (n : Nat) (l : List Int), l ≠ [] → treeFoldN op n l ≠ []
  | 0, _, hne => hne
  | n + 1, l, hne => treeFoldN_ne_nil op n (pairStep op l) (pairStep_ne_nil op l hne)

theorem treeFoldN_length_le (op : Int → Int → Int) :
    ∀ (n : Nat) (l : List Int), (treeFoldN op n l).length ≤ max 1 (l.length - n)
  | 0, l => by
      simp [treeFoldN]
  | n + 1, l => by
      have ih := treeFoldN_length_le op n (pairStep op l)
      rw [treeFoldN]
      have hlen := pairStep_length op l
      omega

theorem treeFold_singleton (op : Int → Int → Int) (l : List Int)
    (hne : l ≠ []) : ∃ a, treeFoldN op l.length l = [a] := by
  have h1 := treeFoldN_length_le op l.length l
  have h2 := treeFoldN_ne_nil op l.length l hne
  rcases hres : treeFoldN op l.length l with _ | ⟨a, rest⟩
  · exact absurd hres h2
  · rw [hres] at h1
    simp only [List.length_cons] at h1
    have : rest = [] := by
      rcases rest with _ | _
      · rfl
      · simp at h1
    exact ⟨a, by rw [this]⟩

theorem treeFold_sum (l : List Int) : treeFold (· + ·) 0 l = l.sum := by
  rcases Decidable.em (l = []) with rfl | hne
  · rfl
  · obtain ⟨a, ha⟩ := treeFold_singleton (· + ·) l hne
    have hsum := treeFoldN_sum l.length l
    rw [ha] at hsum
    simp only [List.sum_cons, List.sum_nil, add_zero] at hsum
    unfold treeFold
    rw [ha, hsum]

/-- **C4**: `Reductor` with the sum operator over any distributed vector
equals the host-computed sum of its elements (exactly, in this integer
model), for element counts both a power of two and not — the intra-shard
tree fold handles odd tails by the extra sequential fold step. -/
theorem reductor_sum_correct (k : Nat) (hk : 1 ≤ k) (h : List Int) :
    reduceVec (· + ·) 0 (copyFrom k h) = h.sum ∧
    (∀ l : List Int, treeFold (· + ·) 0 l = l.sum) := by
  refine ⟨?_, treeFold_sum⟩
  unfold reduceVec
  have hmap : (copyFrom k h).shards.map (treeFold (· + ·) 0) =
      (copyFrom k h).shards.map List.sum := by
    refine List.map_congr_left ?_
    intro l _
    exact treeFold_sum l
  rw [hmap, ← List.sum_eq_foldl, ← List.sum_flatten]
  show ((copyFrom k h).shards.flatten).sum = h.sum
  have : (copyFrom k h).shards.flatten = copyTo (copyFrom k h) := rfl
  rw [this, copyFrom_copyTo k hk h]

/-- Witness for C4: `x = [1, …, 8]` over 2 shards sums to 36, and an
odd-length list (`[1, 2, 3, 4, 5]`, with its odd tail) folds to 15. -/
theorem reductor_sum_correct_witness :
    reduceVec (· + ·) 0 (copyFrom 2 [1, 2, 3, 4, 5, 6, 7, 8]) =
      List.sum [1, 2, 3, 4, 5, 6, 7, 8] ∧
    reduceVec (· + ·) 0 (copyFrom 2 [1, 2, 3, 4, 5, 6, 7, 8]) = 36 ∧
    treeFold (· + ·) 0 [1, 2, 3, 4, 5] = 15 :=
  ⟨(reductor_sum_correct 2 (by decide) [1, 2, 3, 4, 5, 6, 7, 8]).1,
   by decide, by decide⟩

/-! ## Device filters and selection (spec 4.1)

The selector applies `filter.matches(descriptor)` to every device from
every available platform, in platform-enumeration order, preserving that
order in the result.  Filter evaluation is strictly sequential; the `Count`
filter carries a mutable match counter shared across the whole selection
pass, and `&&` short-circuits, so the right operand is consulted only when
the left matched. -/

inductive DevType where
  | cpu
  | gpu
  | accel
  deriving DecidableEq, Repr

/-- Modelled from the spec: immutable snapshot of one accelerator's
capabilities. -/
structure DeviceDescriptor where
  name : String
  vendor : String
  dtype : DevType
  doublePrec : Bool
  deriving DecidableEq, Repr

/-- Modelled from the spec: composable device filter; `countLim` carries its
limit and the number of matches granted so far. -/
inductive DevFilter where
  | typeIs (t : DevType)
  | nameIs (s : String)
  | doublePrec
  | countLim (limit used : Nat)
  | conj (f g : DevFilter)
  | disj (f g : DevFilter)
  | negF (f : DevFilter)
  deriving DecidableEq, Repr

/-- Modelled from the spec: `filter.matches(descriptor)` — the verdict plus
the filter with its `Count` state advanced.  `Count(k)` matches while fewer
than `k` matches have been granted, counting each granted match. -/
def runFilter : DevFilter → DeviceDescriptor → Bool × DevFilter
  | .typeIs t, d => (decide (d.dtype = t), .typeIs t)
  | .nameIs s, d => (decide (d.name = s), .nameIs s)
  | .doublePrec, d => (d.doublePrec, .doublePrec)
  | .countLim k u, _ =>
      if u < k then (true, .countLim k (u + 1)) else (false, .countLim k u)
  | .conj f g, d =>
      let (bf, f') := runFilter f d
      if bf then
        let (bg, g') := runFilter g d
        (bg, .conj f' g')
      else (false, .conj f' g)
  | .disj f g, d =>
      let (bf, f') := runFilter f d
      if bf then (true, .disj f' g)
      else
        let (bg, g') := runFilter g d
        (bg, .disj f' g')
  | .negF f, d =>
      let (bf, f') := runFilter f d
      (!bf, .negF f')

/-- Modelled from the spec: one sequential selection pass over a device
list, threading the filter state and keeping the matches in order. -/
def selectFrom (f : DevFilter) : List DeviceDescriptor → List DeviceDescriptor
  | [] => []
  | d :: rest =>
      let (b, f') := runFilter f d
      if b then d :: selectFrom f' rest else selectFrom f' rest

/-- Modelled from the spec: `select(filter)` applied to every device of
every platform in platform-enumeration order. -/
def selectDevices (f : DevFilter) (platforms : List (List DeviceDescriptor)) :
    List DeviceDescriptor :=
  selectFrom f platforms.flatten

theorem selectFrom_sublist :
    ∀ (ds : List DeviceDescriptor) (f : DevFilter),
      List.Sublist (selectFrom f ds) ds
  | [], _ => List.Sublist.slnil
  | d :: rest, f => by
      rcases hrf : runFilter f d with ⟨b, f'⟩
      rcases b
      · have hsel : selectFrom f (d :: rest) = selectFrom f' rest := by
          simp [selectFrom, hrf]
        rw [hsel]
        exact (selectFrom_sublist rest f').cons d
      · have hsel : selectFrom f (d :: rest) = d :: selectFrom f' rest := by
          simp [selectFrom, hrf]
        rw [hsel]
        exact (selectFrom_sublist rest f').cons₂ d

theorem selectFrom_count_le :
    ∀ (ds : List DeviceDescriptor) (f : DevFilter) (k u : Nat),
      (selectFrom (.conj f (.countLim k u)) ds).length ≤ k - u
  | [], _, _, _ => by simp [selectFrom]
  | d :: rest, f, k, u => by
      rcases hrf : runFilter f d with ⟨bf, f'⟩
      rcases bf
      · have hsel : selectFrom (.conj f (.countLim k u)) (d :: rest) =
            selectFrom (.conj f' (.countLim k u)) rest := by
          simp [selectFrom, runFilter, hrf]
        rw [hsel]
        exact selectFrom_count_le rest f' k u
      · rcases Nat.lt_or_ge u k with hu | hu
        · have hsel : selectFrom (.conj f (.countLim k u)) (d :: rest) =
              d :: selectFrom (.conj f' (.countLim k (u + 1))) rest := by
            simp [selectFrom, runFilter, hrf, hu]
          rw [hsel]
          have ih := selectFrom_count_le rest f' k (u + 1)
          simp only [List.length_cons]
          omega
        · have hsel : selectFrom (.conj f (.countLim k u)) (d :: rest) =
              selectFrom (.conj f' (.countLim k u)) rest := by
            simp [selectFrom, runFilter, hrf, Nat.not_lt.mpr hu]
          rw [hsel]
          exact selectFrom_count_le rest f' k u

/-- A GPU descriptor for the C6 scenario. -/
def gpuDesc (s : String) : DeviceDescriptor := ⟨s, "v", .gpu, true⟩

/-- A CPU descriptor for the C6 scenario. -/
def cpuDesc (s : String) : DeviceDescriptor := ⟨s, "v", .cpu, true⟩

/-- **C6**: selection evaluates the filter over every device of every
platform in platform-enumeration order and preserves that order (the result
is a sublist of the enumeration); a `Count(k)` filter bounds total matches
across the whole selection call by `k`; and
`Filter::Type(GPU) && Filter::Count(1)` applied to a descriptor list with 3
GPUs and 2 CPUs returns exactly 1 device — the first GPU in enumeration
order. -/
theorem device_selection_correct :
    (∀ (f : DevFilter) (platforms : List (List DeviceDescriptor)),
      List.Sublist (selectDevices f platforms) platforms.flatten) ∧
    (∀ (f : DevFilter) (k : Nat) (ds : List DeviceDescriptor),
      (selectFrom (.conj f (.countLim k 0)) ds).length ≤ k) ∧
    selectDevices (.conj (.typeIs .gpu) (.countLim 1 0))
        [[cpuDesc "c1", gpuDesc "g1"], [gpuDesc "g2", cpuDesc "c2", gpuDesc "g3"]] =
      [gpuDesc "g1"] := by
  refine ⟨?_, ?_, ?_⟩
  · intro f platforms
    exact selectFrom_sublist platforms.flatten f
  · intro f k ds
    simpa using selectFrom_count_le ds f k 0
  · decide

/-! ## Distributed sparse matrix and product (spec 4.6)

`SpMat` holds a CSR matrix partitioned by rows per the partition planner.
Per shard, nonzeros whose column falls inside the shard's own row range form
the local block; the rest form the remote block, and their column indices
make up the shard's sorted, deduplicated import set.  The product gathers
the imported values and computes, per shard and row,
`localBlock * x_shard + remoteBlock * importedValues`. -/

/-- Modelled from the spec: CSR input of `SpMat(queue, n, row, col, val)` —
a square `n×n` matrix with row pointers, column indices and values. -/
structure SpMat where
  n : Nat
  rowPtr : List Nat
  colIdx : List Nat
  vals : List Int
  deriving Repr, DecidableEq

/-- The (column, value) nonzero entries of row `r`. -/
def SpMat.entries (A : SpMat) (r : Nat) : List (Nat × Int) :=
  ((A.colIdx.zip A.vals).drop (A.rowPtr.getD r 0)).take
    (A.rowPtr.getD (r + 1) 0 - A.rowPtr.getD r 0)

/-- The dense matrix obtained by accumulating the CSR entries: entry
`(r, c)` is the sum of the values stored for column `c` in row `r`. -/
def SpMat.dense (A : SpMat) (r c : Nat) : Int :=
  ((A.entries r).map (fun p => if p.1 = c then p.2 else 0)).sum

/-- The dense reference matrix-vector product, row `r`. -/
def SpMat.denseMV (A : SpMat) (x : List Int) (r : Nat) : Int :=
  ∑ c ∈ Finset.range A.n, A.dense r c * x.getD c 0

/-- Row `r` of the product read directly off the CSR entries. -/
def SpMat.refRow (A : SpMat) (x : List Int) (r : Nat) : Int :=
  ((A.entries r).map (fun p => p.2 * x.getD p.1 0)).sum

/-- Whether a nonzero's column is owned by shard `s` (falls in the shard's
own row range of the partition into `k` shards). -/
def SpMat.ownPred (A : SpMat) (k s : Nat) (p : Nat × Int) : Bool :=
  decide (bnd A.n k s ≤ p.1 ∧ p.1 < bnd A.n k (s + 1))

/-- Modelled from the spec: shard `s`'s local block of row `r` — the
nonzeros whose column index falls within the shard's own row range. -/
def SpMat.localEntries (A : SpMat) (k s r : Nat) : List (Nat × Int) :=
  (A.entries r).filter (A.ownPred k s)

/-- Modelled from the spec: shard `s`'s remote block of row `r` — all the
other nonzeros of the row. -/
def SpMat.remoteEntries (A : SpMat) (k s r : Nat) : List (Nat × Int) :=
  (A.entries r).filter (fun p => !(A.ownPred k s p))

/-- Modelled from the spec: shard `s`'s import set — the sorted,
deduplicated off-shard column indices appearing in the remote blocks of the
shard's rows. -/
def SpMat.importSet (A : SpMat) (k s : Nat) : List Nat :=
  (List.range A.n).filter (fun c =>
    (List.range A.n).any (fun r =>
      decide (bnd A.n k s ≤ r) && decide (r < bnd A.n k (s + 1)) &&
      (A.remoteEntries k s r).any (fun p => decide (p.1 = c))))

/-- Modelled from the spec: the exchange phase — the imported values of
shard `s`, gathered from the owning shards of `x` in import-set order. -/
def SpMat.importedVals (A : SpMat) (k s : Nat) (x : List Int) : List Int :=
  (A.importSet k s).map (fun c => x.getD c 0)

/-- The position of a column inside an import set. -/
def idxOf (c : Nat) : List Nat → Nat
  | [] => 0
  | a :: L => if a = c then 0 else idxOf c L + 1

/-- Modelled from the spec: the local phase for one row of shard `s`:
`localBlock * x_shard + remoteBlock * importedValues` (local columns index
into the shard's own slice of `x`; remote columns index into the imported
values through the import set). -/
def SpMat.shardRow (A : SpMat) (k s : Nat) (x : List Int) (r : Nat) : Int :=
  ((A.localEntries k s r).map (fun p =>
      p.2 * (slice x (bnd A.n k s) (bnd A.n k (s + 1))).getD
        (p.1 - bnd A.n k s) 0)).sum +
  ((A.remoteEntries k s r).map (fun p =>
      p.2 * (A.importedVals k s x).getD (idxOf p.1 (A.importSet k s)) 0)).sum

/-- Modelled from the spec: the distributed product `A * x` over `k` shards:
each shard computes its rows independently; shard-order concatenation is
row order. -/
def SpMat.mulVec (A : SpMat) (k : Nat) (x : List Int) : List Int :=
  ((List.range k).map (fun s =>
    (List.range' (bnd A.n k s) (bnd A.n k (s + 1) - bnd A.n k s)).map
      (A.shardRow k s x))).flatten

theorem slice_getD (x : List Int) (a b c : Nat) (hac : a ≤ c) (hcb : c < b) :
    (slice x a b).getD (c - a) 0 = x.getD c 0 := by
  simp only [slice, List.getD_eq_getElem?_getD]
  rw [List.getElem?_take_of_lt (by omega : c - a < b - a), List.getElem?_drop]
  congr 2
  omega

theorem getD_map_idxOf (f : Nat → Int) :
    ∀ (L : List Nat) (c : Nat), c ∈ L → (L.map f).getD (idxOf c L) 0 = f c
  | [], c, hc => absurd hc (List.not_mem_nil c)
  | a :: L, c, hc => by
      by_cases h : a = c
      · simp [idxOf, h]
      · have hc' : c ∈ L := by
          rcases List.mem_cons.mp hc with h' | h'
          · exact absurd h'.symm h
          · exact h'
        have ih := getD_map_idxOf f L c hc'
        simp only [idxOf, if_neg h, List.map_cons, List.getD_cons_succ]
        exact ih

theorem sum_filter_not_filter (q : Nat × Int → Bool) (g : Nat × Int → Int) :
    ∀ E : List (Nat × Int),
      ((E.filter q).map g).sum + ((E.filter (fun p => !(q p))).map g).sum =
        (E.map g).sum
  | [] => rfl
  | p :: E => by
      have ih := sum_filter_not_filter q g E
      by_cases hq : q p
      · simp only [List.filter_cons, hq, Bool.not_true, if_pos, List.map_cons,
          List.sum_cons, Bool.false_eq_true, if_neg, ite_false, ite_true]
        omega
      · have hq' : q p = false := by simpa using hq
        simp only [List.filter_cons, hq', Bool.not_false, List.map_cons,
          List.sum_cons, Bool.false_eq_true, if_neg, ite_false, ite_true]
        omega

theorem entries_col_lt (A : SpMat) (hcol : ∀ c ∈ A.colIdx, c < A.n) (r : Nat) :
    ∀ p ∈ A.entries r, p.1 < A.n := by
  intro p hp
  unfold SpMat.entries at hp
  have h1 : p ∈ A.colIdx.zip A.vals :=
    List.mem_of_mem_drop (List.mem_of_mem_take hp)
  exact hcol p.1 (List.of_mem_zip h1).1

theorem sum_swap_aux (n : Nat) (x : List Int) :
    ∀ E : List (Nat × Int), (∀ p ∈ E, p.1 < n) →
      (∑ c ∈ Finset.range n,
        (E.map (fun p => if p.1 = c then p.2 else 0)).sum * x.getD c 0)
      = (E.map (fun p => p.2 * x.getD p.1 0)).sum
  | [], _ => by simp
  | p :: E, hcols => by
      have ih := sum_swap_aux n x E (fun q hq => hcols q (List.mem_cons_of_mem p hq))
      have hmem : p.1 ∈ Finset.range n :=
        Finset.mem_range.mpr (hcols p (List.mem_cons_self p E))
      simp only [List.map_cons, List.sum_cons]
      have hsplit : ∀ c ∈ Finset.range n,
          ((if p.1 = c then p.2 else 0) +
            (E.map (fun q => if q.1 = c then q.2 else 0)).sum) * x.getD c 0
          = (if p.1 = c then p.2 * x.getD c 0 else 0)
            + (E.map (fun q => if q.1 = c then q.2 else 0)).sum * x.getD c 0 := by
        intro c _
        by_cases h : p.1 = c <;> simp [h, add_mul]
      rw [Finset.sum_congr rfl hsplit, Finset.sum_add_distrib, ih,
        Finset.sum_ite_eq (Finset.range n) p.1 (fun c => p.2 * x.getD c 0),
        if_pos hmem]

theorem denseMV_eq_refRow (A : SpMat) (x : List Int) (r : Nat)
    (hcol : ∀ p ∈ A.entries r, p.1 < A.n) : A.denseMV x r = A.refRow x r :=
  sum_swap_aux A.n x (A.entries r) hcol

theorem shardRow_eq_refRow (A : SpMat) (k s : Nat) (x : List Int) (r : Nat)
    (hcol : ∀ p ∈ A.entries r, p.1 < A.n)
    (hsk : s + 1 ≤ k) (hr1 : bnd A.n k s ≤ r) (hr2 : r < bnd A.n k (s + 1)) :
    A.shardRow k s x r = A.refRow x r := by
  have hrn : r < A.n := lt_of_lt_of_le hr2 (bnd_le A.n k (s + 1) hsk)
  unfold SpMat.shardRow SpMat.refRow
  have hlocal : (A.localEntries k s r).map (fun p =>
      p.2 * (slice x (bnd A.n k s) (bnd A.n k (s + 1))).getD (p.1 - bnd A.n k s) 0)
      = (A.localEntries k s r).map (fun p => p.2 * x.getD p.1 0) := by
    refine List.map_congr_left ?_
    intro p hp
    have hpred : A.ownPred k s p = true := (List.mem_filter.mp hp).2
    have hpred' : bnd A.n k s ≤ p.1 ∧ p.1 < bnd A.n k (s + 1) :=
      of_decide_eq_true hpred
    rw [slice_getD x _ _ p.1 hpred'.1 hpred'.2]
  have hremote : (A.remoteEntries k s r).map (fun p =>
      p.2 * (A.importedVals k s x).getD (idxOf p.1 (A.importSet k s)) 0)
      = (A.remoteEntries k s r).map (fun p => p.2 * x.getD p.1 0) := by
    refine List.map_congr_left ?_
    intro p hp
    have hmem : p.1 ∈ A.importSet k s := by
      unfold SpMat.importSet
      rw [List.mem_filter]
      constructor
      · exact List.mem_range.mpr (hcol p (List.mem_of_mem_filter hp))
      · rw [List.any_eq_true]
        refine ⟨r, List.mem_range.mpr hrn, ?_⟩
        rw [Bool.and_eq_true, Bool.and_eq_true]
        refine ⟨⟨decide_eq_true hr1, decide_eq_true hr2⟩, ?_⟩
        rw [List.any_eq_true]
        exact ⟨p, hp, decide_eq_true rfl⟩
    unfold SpMat.importedVals
    rw [getD_map_idxOf (fun c => x.getD c 0) (A.importSet k s) p.1 hmem]
  rw [hlocal, hremote]
  exact sum_filter_not_filter (A.ownPred k s) (fun p => p.2 * x.getD p.1 0)
    (A.entries r)

theorem flatten_map_range' (b : Nat → Nat) (hmono : ∀ i, b i ≤ b (i + 1)) :
    ∀ m : Nat,
      ((List.range m).map (fun s => List.range' (b s) (b (s + 1) - b s))).flatten
        = List.range' (b 0) (b m - b 0)
  | 0 => by simp
  | m + 1 => by
      have ih := flatten_map_range' b hmono m
      have hb0m : b 0 ≤ b m := (monotone_nat_of_le_succ hmono) (Nat.zero_le m)
      have hbm : b m ≤ b (m + 1) := hmono m
      rw [show List.range (m + 1) = List.range m ++ [m] from List.range_succ m,
        List.map_append, List.flatten_append, ih]
      simp only [List.map_cons, List.map_nil, List.flatten_cons, List.flatten_nil,
        List.append_nil]
      calc List.range' (b 0) (b m - b 0) ++ List.range' (b m) (b (m + 1) - b m)
          = List.range' (b 0) (b m - b 0) ++
            List.range' (b 0 + (b m - b 0)) (b (m + 1) - b m) := by
            rw [show b 0 + (b m - b 0) = b m from by omega]
        _ = List.range' (b 0) ((b (m + 1) - b m) + (b m - b 0)) :=
            List.range'_append_1 _ _ _
        _ = List.range' (b 0) (b (m + 1) - b 0) := by
            congr 1
            omega

/-- **C2**: for every CSR matrix `A` partitioned by rows across `k` shards
and every vector `x` sharing `A`'s partition, the sharded product — each
shard computing `localBlock * x_shard + remoteBlock * importedValues` after
the import exchange — equals the dense reference matrix-vector product. -/
theorem spmat_mulVec_correct (A : SpMat) (k : Nat) (x : List Int)
    (hk : 1 ≤ k) (hx : x.length = A.n) (hcol : ∀ c ∈ A.colIdx, c < A.n) :
    A.mulVec k x = (List.range A.n).map (A.denseMV x) := by
  unfold SpMat.mulVec
  have hinner : ∀ s ∈ List.range k,
      (List.range' (bnd A.n k s) (bnd A.n k (s + 1) - bnd A.n k s)).map
        (A.shardRow k s x)
      = (List.range' (bnd A.n k s) (bnd A.n k (s + 1) - bnd A.n k s)).map
        (A.refRow x) := by
    intro s hs
    refine List.map_congr_left ?_
    intro r hr
    rw [List.mem_range'_1] at hr
    have hmono := bnd_mono A.n k s
    have hr2 : r < bnd A.n k (s + 1) := by omega
    exact shardRow_eq_refRow A k s x r (entries_col_lt A hcol r)
      (List.mem_range.mp hs) hr.1 hr2
  rw [List.map_congr_left hinner,
    show (fun s => (List.range' (bnd A.n k s) (bnd A.n k (s + 1) - bnd A.n k s)).map
        (A.refRow x)) =
      (List.map (A.refRow x) ∘
        fun s => List.range' (bnd A.n k s) (bnd A.n k (s + 1) - bnd A.n k s)) from rfl,
    ← List.map_map, ← List.map_flatten,
    flatten_map_range' (bnd A.n k) (bnd_mono A.n k) k,
    bnd_zero A.n k, bnd_last A.n k (by omega), Nat.sub_zero,
    ← List.range_eq_range']
  refine List.map_congr_left ?_
  intro r _
  exact (denseMV_eq_refRow A x r (entries_col_lt A hcol r)).symm

/-- The 4×4 identity-plus-superdiagonal matrix of the C2 scenario in CSR
form: row `r < 3` has 1s at columns `r` and `r+1`; row 3 has only
column 3. -/
def mat4 : SpMat := ⟨4, [0, 2, 4, 6, 7], [0, 1, 1, 2, 2, 3, 3], [1, 1, 1, 1, 1, 1, 1]⟩

/-- Witness for C2: the scenario matrix over 2 shards of 2 rows with
`x = [1, 2, 3, 4]` matches the dense reference and equals `[3, 5, 7, 4]`. -/
theorem spmat_mulVec_correct_witness :
    mat4.mulVec 2 [1, 2, 3, 4] = (List.range 4).map (mat4.denseMV [1, 2, 3, 4]) ∧
    mat4.mulVec 2 [1, 2, 3, 4] = [3, 5, 7, 4] :=
  ⟨spmat_mulVec_correct mat4 2 [1, 2, 3, 4] (by decide) (by decide) (by decide),
   by decide⟩

end OclUtil
